import Mathlib

/-!
# Versioned sources of `atc/resource/v1/versioned_source.go`

A shallow embedding of the two `VersionedSource` implementations
(`putVersionedSource`, backed by a garden container, and `getVersionedSource`,
backed by a worker volume) together with the part of Go's `path` package
(`path.Clean`, `path.Join`) that their `StreamIn` methods call.

Conventions of the embedding

* A Go interface value (`garden.Container`, `worker.Volume`, `io.Reader`,
  `io.ReadCloser`, `error`) and a Go slice are nilable: they are `Option`s and
  `none` is Go's `nil`.
* A backend (container or volume) is stateful.  Its methods are state
  transformers over a backend state `σ`; a method of a versioned source takes
  the backend state and returns the Go results together with the new state.
* Calling a method on a nil interface value is a run-time panic.  The streaming
  methods therefore return an `Option`: `none` is the panic, and `some r` is a
  normal return with the Go result tuple `r.1` and the backend state `r.2`.
* A Go `(io.ReadCloser, error)` result is a pair of two nilable values, so that
  a result carrying both a stream and an error is representable.
-/

/-! ## Go's builtin and `io` types -/

namespace go

/-- Go's builtin `error` interface: `none` is `nil`, `some msg` is an error
identified by its message. -/
abbrev error := Option String

end go

namespace io

/-- An `io.Reader` interface value: `none` is `nil`, `some bs` is a reader
identified by the byte sequence it yields. -/
abbrev Reader := Option (List UInt8)

/-- An `io.ReadCloser` interface value: `none` is `nil`, `some bs` is a stream
identified by the byte sequence it yields. -/
abbrev ReadCloser := Option (List UInt8)

end io

/-! ## Go's `path` package (`path.Clean`, `path.Join`)

The two functions of Go's standard library that `StreamIn` calls, transcribed
from `path/path.go`.  `path.Clean` works on the bytes of the path and only ever
compares them with `/` and `.`; the path is read here as its sequence of
characters.  The `lazybuf` of the Go source is a buffer `buf[0:w]` that avoids
allocating while the output is still a prefix of the input; it is embedded as
the list of the `w` bytes written so far (`append` adds at the end, lowering
`w` truncates). -/

namespace path

/-- The copy loop of the default case of `Clean`:
`for ; r < n && path[r] != '/'; r++ { out.append(path[r]) }`.
Takes the unread input `path[r:]` and the buffer, returns both after the loop. -/
def copyElem : List Char → List Char → List Char × List Char
  | [], out => ([], out)
  | c :: rest, out => if c = '/' then (c :: rest, out) else copyElem rest (out ++ [c])

/-- The backtracking loop of the `..` case of `Clean`:
`for out.w > dotdot && out.index(out.w) != '/' { out.w-- }`,
started at the value of `out.w` given as last argument; returns the final `out.w`. -/
def backtrack (out : List Char) (dotdot : Nat) : Nat → Nat
  | 0 => 0
  | w + 1 => if dotdot < w + 1 ∧ out[w + 1]? ≠ some '/' then backtrack out dotdot w else w + 1

/-- The main loop `for r < n { switch { ... } }` of `Clean`.  Arguments: whether
the path is rooted, the fuel (an upper bound on the number of iterations), the
unread input `path[r:]`, the buffer `out`, and `dotdot`.  Returns the buffer at
loop exit.  Every iteration consumes at least one byte of the input, so fuel
equal to the length of the unread input is never exhausted
(`cleanLoop_fuel_irrelevant`). -/
def cleanLoop (rooted : Bool) : Nat → List Char → List Char → Nat → List Char
  | 0, _, out, _ => out
  | _ + 1, [], out, _ => out
  | fuel + 1, c :: rest, out, dotdot =>
    if c = '/' then
      -- empty path element
      cleanLoop rooted fuel rest out dotdot
    else if c = '.' ∧ (rest = [] ∨ rest.head? = some '/') then
      -- . element
      cleanLoop rooted fuel rest out dotdot
    else if c = '.' ∧ rest.head? = some '.' ∧ (rest.tail = [] ∨ rest.tail.head? = some '/') then
      -- .. element: remove to last /
      if dotdot < out.length then
        -- can backtrack
        cleanLoop rooted fuel rest.tail (out.take (backtrack out dotdot (out.length - 1))) dotdot
      else if rooted = false then
        -- cannot backtrack, but not rooted, so append .. element
        cleanLoop rooted fuel rest.tail
          ((if 0 < out.length then out ++ ['/'] else out) ++ ['.', '.'])
          ((if 0 < out.length then out ++ ['/'] else out) ++ ['.', '.']).length
      else
        cleanLoop rooted fuel rest.tail out dotdot
    else
      -- real path element: add slash if needed, copy element
      cleanLoop rooted fuel
        (copyElem (c :: rest)
          (if (rooted = true ∧ out.length ≠ 1) ∨ (rooted = false ∧ out.length ≠ 0)
            then out ++ ['/'] else out)).1
        (copyElem (c :: rest)
          (if (rooted = true ∧ out.length ≠ 1) ∨ (rooted = false ∧ out.length ≠ 0)
            then out ++ ['/'] else out)).2
        dotdot

/-- The body of `path.Clean` on the character sequence of the path. -/
def cleanBytes (p : List Char) : List Char :=
  if p = [] then ['.']
  else if p.head? = some '/' then
    (fun out => if out.length = 0 then ['.'] else out) (cleanLoop true p.length p.tail ['/'] 1)
  else
    (fun out => if out.length = 0 then ['.'] else out) (cleanLoop false p.length p [] 0)

/-- Go's `path.Clean`. -/
def Clean (p : String) : String := ⟨cleanBytes p.data⟩

/-- Go's `strings.Join(elems, sep)`. -/
def stringsJoin : List String → String → String
  | [], _ => ""
  | [e], _ => e
  | e :: es, sep => e ++ sep ++ stringsJoin es sep

/-- Go's `path.Join(elem...)`:
`for i, e := range elem { if e != "" { return Clean(strings.Join(elem[i:], "/")) } }; return ""`. -/
def Join : List String → String
  | [] => ""
  | e :: es => if e ≠ "" then Clean (stringsJoin (e :: es) "/") else Join es

/-- A path ends in the separator `/`. -/
def endsInSlash (p : String) : Prop := p.data.getLast? = some '/'

instance (p : String) : Decidable (endsInSlash p) :=
  inferInstanceAs (Decidable (p.data.getLast? = some '/'))

/-- A buffer does not end in `/`, unless it is exactly `/`. -/
def EndsOK (l : List Char) : Prop := l.getLast? = some '/' → l = ['/']

/-- The loop invariant of `Clean` about separators: `dotdot` lies inside the
buffer, and every point at which the loop can leave the end of the buffer (the
current end, `dotdot`, or the position of a `/` at or after `dotdot`) leaves a
buffer that does not end in `/` unless it is exactly `/`. -/
def CleanInv (out : List Char) (dotdot : Nat) : Prop :=
  dotdot ≤ out.length ∧
    ∀ w, dotdot ≤ w → w ≤ out.length →
      (w = dotdot ∨ w = out.length ∨ out[w]? = some '/') → EndsOK (out.take w)

end path

/-! ## Types of package `atc` -/

namespace atc

/-- Modelled from the spec: the type `atc.Version` is declared outside the
sources at hand; the spec calls it an ordered mapping of string keys to string
values, opaque to this layer. -/
abbrev Version := List (String × String)

/-- Modelled from the spec: the type `atc.MetadataField` is declared outside the
sources at hand; the spec calls it a (name, value) pair of strings. -/
structure MetadataField where
  Name : String
  Value : String
  deriving DecidableEq, Repr

end atc

/-! ## The backends: `garden.Container` and `worker.Volume` -/

namespace garden

/-- The fields of `garden.StreamOutSpec`. -/
structure StreamOutSpec where
  Path : String
  User : String
  deriving DecidableEq, Repr

/-- The fields of `garden.StreamInSpec`. -/
structure StreamInSpec where
  Path : String
  User : String
  TarStream : io.Reader
  deriving DecidableEq, Repr

/-- The two methods of the `garden.Container` interface that the versioned
sources call, as transformers of the backend state `σ`. -/
structure Container (σ : Type) where
  StreamOut : StreamOutSpec → σ → (io.ReadCloser × go.error) × σ
  StreamIn : StreamInSpec → σ → go.error × σ

end garden

namespace worker

/-- The two methods of the `worker.Volume` interface that the versioned sources
call, as transformers of the backend state `σ`. -/
structure Volume (σ : Type) where
  StreamOut : String → σ → (io.ReadCloser × go.error) × σ
  StreamIn : String → io.Reader → σ → go.error × σ

end worker

/-! ## Package `v1`: the versioned sources -/

namespace v1

/-- The struct `VersionResult`. -/
structure VersionResult where
  Version : atc.Version
  Metadata : Option (List atc.MetadataField)
  deriving DecidableEq, Repr

/-- The struct `putVersionedSource`. -/
structure putVersionedSource (σ : Type) where
  versionResult : VersionResult
  container : Option (garden.Container σ)
  resourceDir : String

/-- The struct `getVersionedSource`. -/
structure getVersionedSource (σ : Type) where
  versionResult : VersionResult
  volume : Option (worker.Volume σ)
  resourceDir : String

/-- The interface `VersionedSource`, with its two implementations. -/
inductive VersionedSource (σ : Type) where
  | put (vs : putVersionedSource σ)
  | get (vs : getVersionedSource σ)

/-- The constructor `NewPutVersionedSource`. -/
def NewPutVersionedSource {σ : Type} (versionResult : VersionResult)
    (container : Option (garden.Container σ)) (resourceDir : String) : VersionedSource σ :=
  .put ⟨versionResult, container, resourceDir⟩

/-- The method `putVersionedSource.Version`. -/
def putVersionedSource.Version {σ : Type} (vs : putVersionedSource σ) : atc.Version :=
  vs.versionResult.Version

/-- The method `putVersionedSource.Metadata`. -/
def putVersionedSource.Metadata {σ : Type} (vs : putVersionedSource σ) :
    Option (List atc.MetadataField) :=
  vs.versionResult.Metadata

/-- The method `putVersionedSource.StreamOut`:
`return vs.container.StreamOut(garden.StreamOutSpec{Path: vs.resourceDir + "/" + src})`. -/
def putVersionedSource.StreamOut {σ : Type} (vs : putVersionedSource σ) (src : String) (w : σ) :
    Option ((io.ReadCloser × go.error) × σ) :=
  match vs.container with
  | none => none
  | some c => some (c.StreamOut ⟨vs.resourceDir ++ "/" ++ src, ""⟩ w)

/-- The method `putVersionedSource.Volume`: `return nil`. -/
def putVersionedSource.Volume {σ : Type} (_vs : putVersionedSource σ) : Option (worker.Volume σ) :=
  none

/-- The method `putVersionedSource.StreamIn`:
`return vs.container.StreamIn(garden.StreamInSpec{Path: path.Join(vs.resourceDir, dst), TarStream: src})`. -/
def putVersionedSource.StreamIn {σ : Type} (vs : putVersionedSource σ) (dst : String)
    (src : io.Reader) (w : σ) : Option (go.error × σ) :=
  match vs.container with
  | none => none
  | some c => some (c.StreamIn ⟨path.Join [vs.resourceDir, dst], "", src⟩ w)

/-- The constructor `NewGetVersionedSource`.  The function `atc.ResourcesDir` is
declared outside the sources at hand and is taken as the first parameter. -/
def NewGetVersionedSource {σ : Type} (ResourcesDir : String → String)
    (volume : Option (worker.Volume σ)) (version : atc.Version)
    (metadata : Option (List atc.MetadataField)) : VersionedSource σ :=
  .get ⟨⟨version, metadata⟩, volume, ResourcesDir "get"⟩

/-- The method `getVersionedSource.Version`. -/
def getVersionedSource.Version {σ : Type} (vs : getVersionedSource σ) : atc.Version :=
  vs.versionResult.Version

/-- The method `getVersionedSource.Metadata`. -/
def getVersionedSource.Metadata {σ : Type} (vs : getVersionedSource σ) :
    Option (List atc.MetadataField) :=
  vs.versionResult.Metadata

/-- The method `getVersionedSource.StreamOut`:
`readCloser, err := vs.volume.StreamOut(src); if err != nil { return nil, err }; return readCloser, err`. -/
def getVersionedSource.StreamOut {σ : Type} (vs : getVersionedSource σ) (src : String) (w : σ) :
    Option ((io.ReadCloser × go.error) × σ) :=
  match vs.volume with
  | none => none
  | some v =>
    match v.StreamOut src w with
    | ((readCloser, err), w1) =>
      if err ≠ none then some ((none, err), w1) else some ((readCloser, err), w1)

/-- The method `getVersionedSource.StreamIn`:
`return vs.volume.StreamIn(path.Join(vs.resourceDir, dst), src)`. -/
def getVersionedSource.StreamIn {σ : Type} (vs : getVersionedSource σ) (dst : String)
    (src : io.Reader) (w : σ) : Option (go.error × σ) :=
  match vs.volume with
  | none => none
  | some v => some (v.StreamIn (path.Join [vs.resourceDir, dst]) src w)

/-- The method `getVersionedSource.Volume`: `return vs.volume`. -/
def getVersionedSource.Volume {σ : Type} (vs : getVersionedSource σ) : Option (worker.Volume σ) :=
  vs.volume

/-- Interface dispatch of `Version`. -/
def VersionedSource.Version {σ : Type} : VersionedSource σ → atc.Version
  | .put vs => vs.Version
  | .get vs => vs.Version

/-- Interface dispatch of `Metadata`. -/
def VersionedSource.Metadata {σ : Type} : VersionedSource σ → Option (List atc.MetadataField)
  | .put vs => vs.Metadata
  | .get vs => vs.Metadata

/-- Interface dispatch of `StreamOut`. -/
def VersionedSource.StreamOut {σ : Type} :
    VersionedSource σ → String → σ → Option ((io.ReadCloser × go.error) × σ)
  | .put vs => vs.StreamOut
  | .get vs => vs.StreamOut

/-- Interface dispatch of `StreamIn`. -/
def VersionedSource.StreamIn {σ : Type} :
    VersionedSource σ → String → io.Reader → σ → Option (go.error × σ)
  | .put vs => vs.StreamIn
  | .get vs => vs.StreamIn

/-- Interface dispatch of `Volume`. -/
def VersionedSource.Volume {σ : Type} : VersionedSource σ → Option (worker.Volume σ)
  | .put vs => vs.Volume
  | .get vs => vs.Volume

/-! ### Sequences of streaming calls -/

/-- A streaming call made on a versioned source. -/
inductive Call where
  | StreamOut (src : String)
  | StreamIn (dst : String) (src : io.Reader)
  deriving DecidableEq, Repr

/-- The receiver and the backend state after one streaming call.  All four
streaming methods have a pointer receiver and none of them assigns to a field of
it, so the receiver after the call is the receiver before it; a call that
panics leaves the backend state as it was. -/
def VersionedSource.invoke {σ : Type} (vs : VersionedSource σ) (c : Call) (w : σ) :
    VersionedSource σ × σ :=
  match c with
  | .StreamOut src =>
    match vs.StreamOut src w with
    | some r => (vs, r.2)
    | none => (vs, w)
  | .StreamIn dst s =>
    match vs.StreamIn dst s w with
    | some r => (vs, r.2)
    | none => (vs, w)

/-- The receiver and the backend state after a sequence of streaming calls. -/
def VersionedSource.invokeAll {σ : Type} : List Call → VersionedSource σ → σ → VersionedSource σ × σ
  | [], vs, w => (vs, w)
  | c :: cs, vs, w => VersionedSource.invokeAll cs (vs.invoke c w).1 (vs.invoke c w).2

/-! ### Backends used in the statements -/

/-- The state of a path-keyed store: the streams written so far, newest first. -/
abbrev Store := List (String × io.Reader)

/-- A container that keeps the stream written under the path it is given and
returns the stream kept under the path it is asked for. -/
def storeContainer : garden.Container Store where
  StreamOut spec st :=
    match st.lookup spec.Path with
    | some s => ((s, none), st)
    | none => ((none, some "no such file or directory"), st)
  StreamIn spec st := (none, (spec.Path, spec.TarStream) :: st)

/-- A volume that keeps the stream written under the path it is given and
returns the stream kept under the path it is asked for. -/
def storeVolume : worker.Volume Store where
  StreamOut p st :=
    match st.lookup p with
    | some s => ((s, none), st)
    | none => ((none, some "no such file or directory"), st)
  StreamIn p s st := (none, (p, s) :: st)

/-- A container whose `StreamOut` fails after it has opened a stream, and hands
back both the stream and the error. -/
def brokenPipeContainer : garden.Container Unit where
  StreamOut _ st := ((some [1, 2], some "broken pipe"), st)
  StreamIn _ st := (some "broken pipe", st)

/-- A volume whose `StreamOut` fails after it has opened a stream, and hands back
both the stream and the error. -/
def brokenPipeVolume : worker.Volume Unit where
  StreamOut _ st := ((some [1, 2], some "broken pipe"), st)
  StreamIn _ _ st := (some "broken pipe", st)

/-- The outcome of `StreamIn(p, data)` immediately followed by `StreamOut(q)` on
the same source: the Go result of the `StreamOut`, or `none` when one of the two
calls panics. -/
def streamInThenOut {σ : Type} (vs : VersionedSource σ) (p : String) (data : io.Reader)
    (q : String) (w : σ) : Option (io.ReadCloser × go.error) :=
  match vs.StreamIn p data w with
  | none => none
  | some r =>
    match vs.StreamOut q r.2 with
    | none => none
    | some r2 => some r2.1

end v1

/-! ## Properties of `path.Clean` and `path.Join` -/

namespace path

theorem copyElem_length (rest out : List Char) : (copyElem rest out).1.length ≤ rest.length := by
  induction rest generalizing out with
  | nil => simp [copyElem]
  | cons c rest ih =>
    unfold copyElem
    split
    · simp
    · exact Nat.le_succ_of_le (ih _)

theorem copyElem_out (rest out : List Char) :
    ∃ e, (copyElem rest out).2 = out ++ e ∧ '/' ∉ e := by
  induction rest generalizing out with
  | nil => exact ⟨[], by simp [copyElem]⟩
  | cons c rest ih =>
    unfold copyElem
    split
    · exact ⟨[], by simp⟩
    · rename_i hc
      obtain ⟨e, he, hs⟩ := ih (out ++ [c])
      refine ⟨c :: e, by simp [he], ?_⟩
      simp only [List.mem_cons, not_or]
      exact ⟨fun h => hc h.symm, hs⟩

theorem copyElem_cons_out (c : Char) (rest out : List Char) (hc : c ≠ '/') :
    ∃ e, (copyElem (c :: rest) out).2 = out ++ c :: e ∧ '/' ∉ e := by
  obtain ⟨e, he, hs⟩ := copyElem_out rest (out ++ [c])
  refine ⟨e, ?_, hs⟩
  simp [copyElem, hc, he]

theorem backtrack_spec (out : List Char) (dd w0 : Nat) (h : dd ≤ w0) :
    dd ≤ backtrack out dd w0 ∧ backtrack out dd w0 ≤ w0 ∧
      (backtrack out dd w0 = dd ∨ out[backtrack out dd w0]? = some '/') := by
  induction w0 with
  | zero => simp [backtrack]; omega
  | succ w ih =>
    unfold backtrack
    split
    · rename_i hc
      obtain ⟨h1, h2, h3⟩ := ih (by omega)
      exact ⟨h1, by omega, h3⟩
    · rename_i hc
      refine ⟨h, le_refl _, ?_⟩
      by_cases hd : dd < w + 1
      · right
        by_contra hne
        exact hc ⟨hd, hne⟩
      · left; omega

theorem cleanLoop_fuel_irrelevant (rooted : Bool) (f1 f2 : Nat) (rest out : List Char) (dd : Nat)
    (h1 : rest.length ≤ f1) (h2 : rest.length ≤ f2) :
    cleanLoop rooted f1 rest out dd = cleanLoop rooted f2 rest out dd := by
  induction f1 generalizing f2 rest out dd with
  | zero =>
    have : rest = [] := List.length_eq_zero.mp (by omega)
    subst this
    cases f2 <;> simp [cleanLoop]
  | succ f1 ih =>
    cases rest with
    | nil => cases f2 <;> simp [cleanLoop]
    | cons c rest =>
      cases f2 with
      | zero => simp at h2
      | succ f2 =>
        simp only [List.length_cons, Nat.add_le_add_iff_right] at h1 h2
        have ht : rest.tail.length ≤ rest.length := by simp
        simp only [cleanLoop]
        have hcp : c ≠ '/' → ∀ o, (copyElem (c :: rest) o).1.length ≤ rest.length := by
          intro hc o
          simp only [copyElem, hc, if_false]
          exact copyElem_length _ _
        split_ifs with hc
        all_goals first
          | exact ih _ _ _ _ h1 h2
          | exact ih _ _ _ _ (by omega) (by omega)
          | exact ih _ _ _ _ (le_trans (hcp hc _) h1) (le_trans (hcp hc _) h2)


theorem CleanInv.endsOK {out : List Char} {dd : Nat} (h : CleanInv out dd) : EndsOK out := by
  have := h.2 out.length h.1 (le_refl _) (Or.inr (Or.inl rfl))
  simpa using this

theorem CleanInv.truncate {out : List Char} {dd : Nat} (h : CleanInv out dd) (w : Nat)
    (h1 : dd ≤ w) (h2 : w ≤ out.length) (h3 : w = dd ∨ out[w]? = some '/') :
    CleanInv (out.take w) dd := by
  have hlen : (out.take w).length = w := by simp [h2]
  refine ⟨by omega, ?_⟩
  intro w' hw1 hw2 hw3
  rw [hlen] at hw2 hw3
  have htt : (out.take w).take w' = out.take w' := by
    rw [List.take_take, Nat.min_eq_left hw2]
  rw [htt]
  apply h.2 w' hw1 (by omega)
  rcases hw3 with hw3 | hw3 | hw3
  · exact Or.inl hw3
  · subst hw3
    rcases h3 with h3 | h3
    · exact Or.inl h3
    · exact Or.inr (Or.inr h3)
  · right; right
    rw [List.getElem?_take] at hw3
    split at hw3
    · exact hw3
    · simp at hw3

theorem CleanInv.append {out : List Char} {dd : Nat} (h : CleanInv out dd)
    (hd tl : List Char) (hhd : hd.length ≤ 1) (hne : tl ≠ []) (hs : '/' ∉ tl) :
    CleanInv (out ++ hd ++ tl) dd := by
  have htl : 0 < tl.length := List.length_pos.mpr hne
  refine ⟨by have := h.1; simp; omega, ?_⟩
  intro w hw1 hw2 hw3
  by_cases hle : w ≤ out.length
  · have : (out ++ hd ++ tl).take w = out.take w := by
      rw [List.append_assoc, List.take_append_of_le_length hle]
    rw [this]
    rcases Nat.lt_or_eq_of_le hle with hlt | heq
    · apply h.2 w hw1 hle
      rcases hw3 with hw3 | hw3 | hw3
      · exact Or.inl hw3
      · simp at hw3; omega
      · right; right
        rw [List.append_assoc, List.getElem?_append_left hlt] at hw3
        exact hw3
    · subst heq
      simpa using h.endsOK
  · have hgt : out.length < w := by omega
    rcases hw3 with hw3 | hw3 | hw3
    · have := h.1; omega
    · subst hw3
      simp only [List.take_length]
      intro hl
      rw [List.getLast?_append_of_ne_nil _ hne] at hl
      exact absurd (List.mem_of_getLast?_eq_some hl) hs
    · exfalso
      have hmem : (out ++ hd ++ tl)[w]? = tl[w - (out ++ hd).length]? := by
        apply List.getElem?_append_right
        simp; omega
      rw [hmem] at hw3
      exact hs (List.getElem?_mem hw3)

theorem CleanInv.atEnd (l : List Char) (h : l.getLast? ≠ some '/') : CleanInv l l.length := by
  refine ⟨le_refl _, ?_⟩
  intro w hw1 hw2 _
  have : w = l.length := by omega
  subst this
  intro hl
  simp at hl
  exact absurd hl h

theorem cleanLoop_endsOK (rooted : Bool) (fuel : Nat) (rest out : List Char) (dd : Nat)
    (h : CleanInv out dd) : EndsOK (cleanLoop rooted fuel rest out dd) := by
  induction fuel generalizing rest out dd with
  | zero => simpa [cleanLoop] using h.endsOK
  | succ fuel ih =>
    cases rest with
    | nil => simpa [cleanLoop] using h.endsOK
    | cons c rest =>
      simp only [cleanLoop]
      split_ifs with hc h2 h3 h4 h5 h6 h7
      · exact ih _ _ _ h
      · exact ih _ _ _ h
      · apply ih
        obtain ⟨b1, b2, b3⟩ := backtrack_spec out dd (out.length - 1) (by omega)
        exact h.truncate _ b1 (by omega) b3
      · apply ih
        apply CleanInv.atEnd
        simp
      · apply ih
        apply CleanInv.atEnd
        simp
      · exact ih _ _ _ h
      · apply ih
        obtain ⟨e, he, hs⟩ := copyElem_cons_out c rest (out ++ ['/']) hc
        rw [he]
        apply h.append ['/'] (c :: e) (by simp) (by simp)
        simp only [List.mem_cons, not_or]
        exact ⟨fun h => hc h.symm, hs⟩
      · apply ih
        obtain ⟨e, he, hs⟩ := copyElem_cons_out c rest out hc
        rw [he]
        have := h.append [] (c :: e) (by simp) (by simp) (by
          simp only [List.mem_cons, not_or]
          exact ⟨fun h => hc h.symm, hs⟩)
        simpa using this

theorem cleanBytes_endsOK (p : List Char) : EndsOK (cleanBytes p) := by
  unfold cleanBytes
  split_ifs with h1 h2
  · intro h; simp at h
  · have hinv : CleanInv ['/'] 1 := by
      refine ⟨by simp, ?_⟩
      intro w hw1 hw2 _
      have : w = 1 := by simp at hw2; omega
      subst this
      intro _; rfl
    have := cleanLoop_endsOK true p.length p.tail ['/'] 1 hinv
    show EndsOK (if _ then _ else _)
    split_ifs with h3
    · intro h; simp at h
    · exact this
  · have hinv : CleanInv [] 0 := CleanInv.atEnd [] (by simp)
    have := cleanLoop_endsOK false p.length p [] 0 hinv
    show EndsOK (if _ then _ else _)
    split_ifs with h3
    · intro h; simp at h
    · exact this

theorem Clean_endsInSlash (p : String) (h : endsInSlash (Clean p)) : Clean p = "/" := by
  have := cleanBytes_endsOK p.data h
  unfold Clean
  rw [this]


theorem copyElem_snoc_slash (l out : List Char) :
    copyElem (l ++ ['/']) out = ((copyElem l out).1 ++ ['/'], (copyElem l out).2) := by
  induction l generalizing out with
  | nil => simp [copyElem]
  | cons c l ih =>
    simp only [List.cons_append, copyElem]
    split_ifs with hc
    · simp
    · exact ih _

theorem snoc_slash_head (r : List Char) :
    (r ++ ['/'] = [] ∨ (r ++ ['/']).head? = some '/') ↔ (r = [] ∨ r.head? = some '/') := by
  cases r <;> simp

theorem snoc_slash_head_dot (r : List Char) :
    (r ++ ['/']).head? = some '.' ↔ r.head? = some '.' := by
  cases r <;> simp

theorem snoc_slash_tail (r : List Char) (h : r ≠ []) : (r ++ ['/']).tail = r.tail ++ ['/'] := by
  cases r with
  | nil => exact absurd rfl h
  | cons _ _ => simp

theorem cleanLoop_snoc_slash (rooted : Bool) (f : Nat) (rest out : List Char) (dd : Nat)
    (h : rest.length ≤ f) :
    cleanLoop rooted (f + 1) (rest ++ ['/']) out dd = cleanLoop rooted f rest out dd := by
  induction f generalizing rest out dd with
  | zero =>
    have : rest = [] := List.length_eq_zero.mp (by omega)
    subst this
    simp [cleanLoop]
  | succ f ih =>
    cases rest with
    | nil => simp [cleanLoop]
    | cons c r =>
      simp only [List.length_cons, Nat.add_le_add_iff_right] at h
      have hcp : c ≠ '/' → ∀ o, (copyElem (c :: r) o).1.length ≤ r.length := by
        intro hc o
        simp only [copyElem, hc, if_false]
        exact copyElem_length _ _
      have ht : r.tail.length ≤ f := by
        have : r.tail.length ≤ r.length := by simp
        omega
      simp only [List.cons_append, cleanLoop, List.append_eq, snoc_slash_head, snoc_slash_head_dot]
      by_cases hc : c = '/'
      · rw [if_pos hc, if_pos hc]
        exact ih _ _ _ h
      · rw [if_neg hc, if_neg hc]
        by_cases h2 : c = '.' ∧ (r = [] ∨ r.head? = some '/')
        · rw [if_pos h2, if_pos h2]
          exact ih _ _ _ h
        · rw [if_neg h2, if_neg h2]
          by_cases hd : r.head? = some '.'
          · have hr : r ≠ [] := by
              intro hr; subst hr; simp at hd
            simp only [snoc_slash_tail r hr, snoc_slash_head]
            split_ifs
            all_goals first
              | exact ih _ _ _ ht
              | (rw [← List.cons_append, copyElem_snoc_slash]; exact ih _ _ _ (le_trans (hcp hc _) h))
          · have h3 : ∀ P : Prop, ¬(c = '.' ∧ r.head? = some '.' ∧ P) := fun P hP => hd hP.2.1
            rw [if_neg (h3 _), if_neg (h3 _)]
            rw [← List.cons_append]
            simp only [copyElem_snoc_slash]
            exact ih _ _ _ (le_trans (hcp hc _) h)

theorem cleanBytes_snoc_slash (p : List Char) (h : p ≠ []) :
    cleanBytes (p ++ ['/']) = cleanBytes p := by
  have hh : (p ++ ['/']).head? = p.head? := by
    cases p with
    | nil => exact absurd rfl h
    | cons _ _ => simp
  have htl : p.tail.length ≤ p.length := by simp
  unfold cleanBytes
  rw [hh, if_neg (by simp), if_neg h, snoc_slash_tail p h]
  simp only [List.length_append, List.length_singleton]
  rw [cleanLoop_snoc_slash _ _ _ _ _ htl, cleanLoop_snoc_slash _ _ _ _ _ (le_refl _)]

theorem data_ne_nil {s : String} (h : s ≠ "") : s.data ≠ [] := by
  intro hd
  apply h
  cases s
  simp at hd
  subst hd
  rfl

theorem Clean_append_slash (a : String) (h : a ≠ "") : Clean (a ++ "/") = Clean a := by
  unfold Clean
  have : (a ++ "/").data = a.data ++ ['/'] := by simp
  rw [this, cleanBytes_snoc_slash _ (data_ne_nil h)]

theorem Join_pair (a b : String) (h : a ≠ "" ∨ b ≠ "") :
    Join [a, b] = Clean (stringsJoin ([a, b].filter (fun e => e ≠ "")) "/") := by
  by_cases ha : a = ""
  · have hb : b ≠ "" := by
      rcases h with h | h
      · exact absurd ha h
      · exact h
    subst ha
    simp [Join, stringsJoin, hb]
  · by_cases hb : b = ""
    · subst hb
      simp [Join, stringsJoin, ha, Clean_append_slash a ha]
    · simp [Join, stringsJoin, ha, hb]


theorem Join_pair_endsInSlash (a b : String) (hb : b ≠ "") (h : endsInSlash (Join [a, b])) :
    Join [a, b] = "/" := by
  by_cases ha : a = ""
  · subst ha
    have hj : Join ["", b] = Clean (stringsJoin [b] "/") := by simp [Join, hb]
    rw [hj] at h ⊢
    exact Clean_endsInSlash _ h
  · have hj : Join [a, b] = Clean (stringsJoin [a, b] "/") := by simp [Join, ha]
    rw [hj] at h ⊢
    exact Clean_endsInSlash _ h

theorem endsInSlash_ne_empty {s : String} (h : endsInSlash s) : s ≠ "" := by
  intro hs
  subst hs
  simp [endsInSlash] at h

theorem endsInSlash_concat (a b : String) (h : endsInSlash b) : endsInSlash (a ++ "/" ++ b) := by
  unfold endsInSlash at h ⊢
  have hb : b.data ≠ [] := data_ne_nil (endsInSlash_ne_empty h)
  simp only [String.data_append]
  rw [List.getLast?_append_of_ne_nil _ hb]
  exact h

theorem concat_ne_slash (a b : String) (hb : b ≠ "") : a ++ "/" ++ b ≠ "/" := by
  intro h
  have hd : (a ++ "/" ++ b).data.length = ("/" : String).data.length := by rw [h]
  have h1 : ("/" : String).data = ['/'] := rfl
  have hb : 0 < b.data.length := List.length_pos.mpr (data_ne_nil hb)
  simp only [String.data_append, List.length_append, h1, List.length_singleton] at hd
  omega

end path

/-! ## Properties of the versioned sources -/

namespace v1

theorem invokeAll_receiver {σ : Type} (calls : List Call) (vs : VersionedSource σ) (w : σ) :
    (VersionedSource.invokeAll calls vs w).1 = vs := by
  induction calls generalizing w with
  | nil => rfl
  | cons c cs ih =>
    have hstep : (vs.invoke c w).1 = vs := by
      cases c <;> simp only [VersionedSource.invoke] <;> split <;> rfl
    simp only [VersionedSource.invokeAll, hstep]
    exact ih _

/-- In all four streaming methods the error handed to the caller is the error
value the backend returned, and the backend state is the one the backend left. -/
theorem stream_error_verbatim {σ : Type} (vr : VersionResult) (c : garden.Container σ)
    (resourceDir : String) (ResourcesDir : String → String) (v : worker.Volume σ)
    (version : atc.Version) (metadata : Option (List atc.MetadataField))
    (p : String) (s : io.Reader) (w : σ) :
    ((NewPutVersionedSource vr (some c) resourceDir).StreamOut p w).map (fun r => (r.1.2, r.2))
        = some ((c.StreamOut ⟨resourceDir ++ "/" ++ p, ""⟩ w).1.2,
            (c.StreamOut ⟨resourceDir ++ "/" ++ p, ""⟩ w).2) ∧
    (NewPutVersionedSource vr (some c) resourceDir).StreamIn p s w
        = some (c.StreamIn ⟨path.Join [resourceDir, p], "", s⟩ w) ∧
    ((NewGetVersionedSource ResourcesDir (some v) version metadata).StreamOut p w).map
        (fun r => (r.1.2, r.2)) = some ((v.StreamOut p w).1.2, (v.StreamOut p w).2) ∧
    (NewGetVersionedSource ResourcesDir (some v) version metadata).StreamIn p s w
        = some (v.StreamIn (path.Join [ResourcesDir "get", p]) s w) := by
  refine ⟨rfl, rfl, ?_, rfl⟩
  simp only [NewGetVersionedSource, VersionedSource.StreamOut, getVersionedSource.StreamOut]
  split_ifs <;> rfl

/-- C1: for every VersionResult, container and resourceDir, the source built by
`NewPutVersionedSource` returns the nil volume from `Volume()`, right after
construction and after any sequence of `StreamIn`/`StreamOut` calls started in
any backend state. -/
theorem put_volume_nil {σ : Type} (vr : VersionResult) (container : Option (garden.Container σ))
    (resourceDir : String) (calls : List Call) (w : σ) :
    (NewPutVersionedSource vr container resourceDir).Volume = none ∧
    (VersionedSource.invokeAll calls
      (NewPutVersionedSource vr container resourceDir) w).1.Volume = none := by
  rw [invokeAll_receiver]
  exact ⟨rfl, rfl⟩

/-- C2: for every working directory and every relative path `src`,
`putVersionedSource.StreamOut(src)` is the container's `StreamOut` called with the
path `resourceDir ++ "/" ++ src`, whose characters are those of `resourceDir`, one
`/`, and those of `src`, unchanged; with `/scratch` and `out/` the container is
asked for `/scratch/out/`, and doubled separators and dot elements stay as they
are, and a store that holds one stream under `/scratch/out` and another under
`/scratch/out/` hands back the second. -/
theorem put_streamOut_literal_path {σ : Type} (vr : VersionResult) (c : garden.Container σ)
    (resourceDir src : String) (w : σ) :
    (NewPutVersionedSource vr (some c) resourceDir).StreamOut src w
        = some (c.StreamOut ⟨resourceDir ++ "/" ++ src, ""⟩ w) ∧
    (resourceDir ++ "/" ++ src).data = resourceDir.data ++ '/' :: src.data ∧
    (NewPutVersionedSource vr (some c) "/scratch").StreamOut "out/" w
        = some (c.StreamOut ⟨"/scratch/out/", ""⟩ w) ∧
    (NewPutVersionedSource vr (some c) "/scratch/").StreamOut "./a//../b/" w
        = some (c.StreamOut ⟨"/scratch//./a//../b/", ""⟩ w) ∧
    ((NewPutVersionedSource vr (some storeContainer) "/scratch").StreamOut "out/"
        [("/scratch/out", some [1]), ("/scratch/out/", some [2])]).map (fun r => r.1)
        = some (some [2], none) := by
  refine ⟨rfl, by simp, rfl, rfl, rfl⟩

/-- C3: for every working directory, relative path `dst` and stream `s`,
`putVersionedSource.StreamIn(dst, s)` is the container's `StreamIn` called with the
path `path.Join(resourceDir, dst)` and with `s` itself as the tar stream;
`path.Join` of the two is `path.Clean` of the non-empty ones among them joined by
`/` whenever one of them is non-empty; with `/scratch` and `a/b` the path is
`/scratch/a/b`. -/
theorem put_streamIn_joined_path {σ : Type} (vr : VersionResult) (c : garden.Container σ)
    (resourceDir dst : String) (s : io.Reader) (w : σ) :
    (NewPutVersionedSource vr (some c) resourceDir).StreamIn dst s w
        = some (c.StreamIn ⟨path.Join [resourceDir, dst], "", s⟩ w) ∧
    (resourceDir ≠ "" ∨ dst ≠ "" →
      path.Join [resourceDir, dst]
        = path.Clean (path.stringsJoin ([resourceDir, dst].filter (fun e => e ≠ "")) "/")) ∧
    (NewPutVersionedSource vr (some c) "/scratch").StreamIn "a/b" s w
        = some (c.StreamIn ⟨"/scratch/a/b", "", s⟩ w) := by
  refine ⟨rfl, path.Join_pair _ _, ?_⟩
  have : path.Join ["/scratch", "a/b"] = "/scratch/a/b" := by decide
  simp only [NewPutVersionedSource, VersionedSource.StreamIn, putVersionedSource.StreamIn, this]

/-- Witness of C3 at the working directory `/scratch` and the path `a/b`. -/
theorem put_streamIn_joined_path_witness :
    (("/scratch" : String) ≠ "" ∨ ("a/b" : String) ≠ "") ∧
    (NewPutVersionedSource ⟨[], none⟩ (some storeContainer) "/scratch").StreamIn "a/b"
        (some [1, 2, 3]) [] = some (none, [("/scratch/a/b", some [1, 2, 3])]) ∧
    path.Join ["/scratch", "a/b"]
        = path.Clean (path.stringsJoin (["/scratch", "a/b"].filter (fun e => e ≠ "")) "/") :=
  ⟨by decide,
    (put_streamIn_joined_path ⟨[], none⟩ storeContainer "/scratch" "a/b" (some [1, 2, 3]) []).2.2,
    (put_streamIn_joined_path ⟨[], none⟩ storeContainer "/scratch" "a/b" (some [1, 2, 3]) []).2.1
      (by decide)⟩

/-- C4: for every volume, version, metadata, relative path `dst` and stream `s`,
`getVersionedSource.StreamIn(dst, s)` is the volume's `StreamIn` called with
`path.Join(atc.ResourcesDir("get"), dst)` and with `s` itself; the directory is the
same value `atc.ResourcesDir("get")` whatever the constructor arguments are, and
when that value is `get` and `dst` is `x` the path is `get/x`. -/
theorem get_streamIn_joined_path {σ : Type} (ResourcesDir : String → String)
    (v : worker.Volume σ) (version : atc.Version) (metadata : Option (List atc.MetadataField))
    (dst : String) (s : io.Reader) (w : σ) :
    (NewGetVersionedSource ResourcesDir (some v) version metadata).StreamIn dst s w
        = some (v.StreamIn (path.Join [ResourcesDir "get", dst]) s w) ∧
    (NewGetVersionedSource (fun _ => "get") (some v) version metadata).StreamIn "x" s w
        = some (v.StreamIn "get/x" s w) := by
  refine ⟨rfl, ?_⟩
  have : path.Join ["get", "x"] = "get/x" := by decide
  simp only [NewGetVersionedSource, VersionedSource.StreamIn, getVersionedSource.StreamIn, this]

/-- C5: for every relative path `src`, `getVersionedSource.StreamOut(src)` calls the
volume's `StreamOut` with exactly `src`, whether that call fails or not: the error
and the backend state it hands on are always those of that one call, the stream it
hands on is the stream of that call when the call returns no error and nil
otherwise, and so, when that call returns no error, the whole result is the result
of that call.  A store volume that holds streams under `get/x`, `x` and `x/` hands
back the one under `x/` when asked for `x/`. -/
theorem get_streamOut_direct {σ : Type} (ResourcesDir : String → String)
    (v : worker.Volume σ) (version : atc.Version) (metadata : Option (List atc.MetadataField))
    (src : String) (w : σ) :
    ((NewGetVersionedSource ResourcesDir (some v) version metadata).StreamOut src w).map
        (fun r => (r.1.2, r.2)) = some ((v.StreamOut src w).1.2, (v.StreamOut src w).2) ∧
    (NewGetVersionedSource ResourcesDir (some v) version metadata).StreamOut src w
        = some ((if (v.StreamOut src w).1.2 = none then (v.StreamOut src w).1.1 else none,
            (v.StreamOut src w).1.2), (v.StreamOut src w).2) ∧
    ((v.StreamOut src w).1.2 = none →
      (NewGetVersionedSource ResourcesDir (some v) version metadata).StreamOut src w
        = some (v.StreamOut src w)) ∧
    ((NewGetVersionedSource ResourcesDir (some storeVolume) version metadata).StreamOut "x/"
        [("get/x", some [1]), ("x", some [2]), ("x/", some [3])]).map (fun r => r.1)
        = some (some [3], none) := by
  rcases hv : v.StreamOut src w with ⟨⟨rc, err⟩, w1⟩
  refine ⟨?_, ?_, ?_, rfl⟩
  · simp only [NewGetVersionedSource, VersionedSource.StreamOut, getVersionedSource.StreamOut,
      hv]
    split_ifs <;> rfl
  · simp only [NewGetVersionedSource, VersionedSource.StreamOut, getVersionedSource.StreamOut,
      hv]
    cases err with
    | none => simp
    | some e => simp
  · intro hok
    simp only at hok
    subst hok
    simp [NewGetVersionedSource, VersionedSource.StreamOut, getVersionedSource.StreamOut, hv]

/-- Witness of C5 on a store volume: a call that succeeds, on a store that holds a
stream under `x`, and a call that fails, on an empty store. -/
theorem get_streamOut_direct_witness :
    (storeVolume.StreamOut "x" [("x", some [7, 8])]).1.2 = none ∧
    (NewGetVersionedSource (fun s => s) (some storeVolume) [] none).StreamOut "x"
        [("x", some [7, 8])] = some ((some [7, 8], none), [("x", some [7, 8])]) ∧
    (NewGetVersionedSource (fun s => s) (some storeVolume) [] none).StreamOut "x" []
        = some ((none, some "no such file or directory"), []) :=
  ⟨by decide,
    (get_streamOut_direct (fun s => s) storeVolume [] none "x" [("x", some [7, 8])]).2.2.1
      (by decide),
    (get_streamOut_direct (fun s => s) storeVolume [] none "x" []).2.1⟩

/-- C6, evaluated where it fails: on a container whose `StreamOut` hands back a
stream together with its error, `putVersionedSource.StreamOut` returns the error
and that stream, whereas `getVersionedSource.StreamOut` on a volume that answers the
same way returns the error and no stream. -/
theorem put_streamOut_keeps_stream_on_error :
    (NewPutVersionedSource ⟨[], none⟩ (some brokenPipeContainer) "/scratch").StreamOut "out" ()
        = some ((some [1, 2], some "broken pipe"), ()) ∧
    (NewGetVersionedSource (fun s => s) (some brokenPipeVolume) [] none).StreamOut "out" ()
        = some ((none, some "broken pipe"), ()) := by
  decide

/-- C7 fails as stated: on the store container, with working directory `/scratch`,
`StreamIn("out/", data)` writes under `/scratch/out` and the `StreamOut("out/")`
that follows asks for `/scratch/out/`, so it returns an error and no stream; on the
store volume, with the directory `get`, `StreamIn("x", data)` writes under `get/x`
and the `StreamOut("x")` that follows asks for `x`, with the same outcome. -/
theorem roundTrip_same_argument_fails :
    streamInThenOut (NewPutVersionedSource ⟨[], none⟩ (some storeContainer) "/scratch")
        "out/" (some [1, 2, 3]) "out/" [] = some (none, some "no such file or directory") ∧
    streamInThenOut (NewPutVersionedSource ⟨[], none⟩ (some storeContainer) "/scratch")
        "out/" (some [1, 2, 3]) "out/" [] ≠ some (some [1, 2, 3], none) ∧
    streamInThenOut (NewGetVersionedSource (fun s => s) (some storeVolume) [] none)
        "x" (some [1, 2, 3]) "x" [] = some (none, some "no such file or directory") ∧
    streamInThenOut (NewGetVersionedSource (fun s => s) (some storeVolume) [] none)
        "x" (some [1, 2, 3]) "x" [] ≠ some (some [1, 2, 3], none) := by
  decide

/-- C7 as amended: on the store backends, `StreamIn(p, data)` immediately followed
by `StreamOut(q)` on the same source yields `data` itself and no error whenever the
path that `StreamOut(q)` asks for is the path that `StreamIn(p, _)` wrote to, that
is `resourceDir ++ "/" ++ q = path.Join(resourceDir, p)` for a put source and
`q = path.Join(atc.ResourcesDir("get"), p)` for a get source. -/
theorem roundTrip_same_path (vr : VersionResult) (resourceDir : String)
    (ResourcesDir : String → String) (version : atc.Version)
    (metadata : Option (List atc.MetadataField)) (p q : String) (data : List UInt8)
    (st : Store) :
    (resourceDir ++ "/" ++ q = path.Join [resourceDir, p] →
      streamInThenOut (NewPutVersionedSource vr (some storeContainer) resourceDir)
        p (some data) q st = some (some data, none)) ∧
    (q = path.Join [ResourcesDir "get", p] →
      streamInThenOut (NewGetVersionedSource ResourcesDir (some storeVolume) version metadata)
        p (some data) q st = some (some data, none)) := by
  constructor
  · intro h
    simp [streamInThenOut, NewPutVersionedSource, VersionedSource.StreamIn,
      VersionedSource.StreamOut, putVersionedSource.StreamIn, putVersionedSource.StreamOut,
      storeContainer, h, List.lookup]
  · intro h
    simp [streamInThenOut, NewGetVersionedSource, VersionedSource.StreamIn,
      VersionedSource.StreamOut, getVersionedSource.StreamIn, getVersionedSource.StreamOut,
      storeVolume, h, List.lookup]

/-- Witness of the amended C7: a put source at `/scratch` with `a/b` written and
read, and a get source under the directory `get` with `x` written and `get/x`
read. -/
theorem roundTrip_same_path_witness :
    (("/scratch" : String) ++ "/" ++ "a/b" = path.Join ["/scratch", "a/b"]) ∧
    (("get/x" : String) = path.Join ["get", "x"]) ∧
    streamInThenOut (NewPutVersionedSource ⟨[], none⟩ (some storeContainer) "/scratch")
        "a/b" (some [1, 2, 3]) "a/b" [] = some (some [1, 2, 3], none) ∧
    streamInThenOut (NewGetVersionedSource (fun s => s) (some storeVolume) [] none)
        "x" (some [1, 2, 3]) "get/x" [] = some (some [1, 2, 3], none) :=
  ⟨by decide, by decide,
    (roundTrip_same_path ⟨[], none⟩ "/scratch" (fun s => s) [] none "a/b" "a/b" [1, 2, 3] []).1
      (by decide),
    (roundTrip_same_path ⟨[], none⟩ "/scratch" (fun s => s) [] none "x" "get/x" [1, 2, 3] []).2
      (by decide)⟩

/-- C8: for every volume `v`, version and metadata, the source built by
`NewGetVersionedSource(v, version, metadata)` returns `v` itself from `Volume()`,
right after construction and after any sequence of `StreamIn`/`StreamOut` calls
started in any backend state. -/
theorem get_volume_is_constructor_argument {σ : Type} (ResourcesDir : String → String)
    (v : Option (worker.Volume σ)) (version : atc.Version)
    (metadata : Option (List atc.MetadataField)) (calls : List Call) (w : σ) :
    (NewGetVersionedSource ResourcesDir v version metadata).Volume = v ∧
    (VersionedSource.invokeAll calls
      (NewGetVersionedSource ResourcesDir v version metadata) w).1.Volume = v := by
  rw [invokeAll_receiver]
  exact ⟨rfl, rfl⟩

/-- C9 fails as stated: a source built with nil metadata returns nil from
`Metadata()`, not an empty sequence, in both variants. -/
theorem metadata_nil_stays_nil :
    (NewPutVersionedSource ⟨[], none⟩ (some storeContainer) "/scratch").Metadata = none ∧
    (NewPutVersionedSource ⟨[], none⟩ (some storeContainer) "/scratch").Metadata ≠ some [] ∧
    (NewGetVersionedSource (fun s => s) (some storeVolume) [] none).Metadata = none ∧
    (NewGetVersionedSource (fun s => s) (some storeVolume) [] none).Metadata ≠ some [] := by
  decide

/-- C9 as amended: in both variants `Metadata()` returns exactly the metadata
sequence the source was constructed with, so nil when it was constructed with nil
and an empty non-nil sequence when it was constructed with one. -/
theorem metadata_is_constructor_argument {σ : Type} (version : atc.Version)
    (metadata : Option (List atc.MetadataField)) (container : Option (garden.Container σ))
    (resourceDir : String) (ResourcesDir : String → String) (v : Option (worker.Volume σ)) :
    (NewPutVersionedSource ⟨version, metadata⟩ container resourceDir).Metadata = metadata ∧
    (NewGetVersionedSource ResourcesDir v version metadata).Metadata = metadata :=
  ⟨rfl, rfl⟩

/-- C10: for every working directory and every relative path `rel` that ends in
`/`, the path `putVersionedSource.StreamOut(rel)` hands to the container ends in
`/`, the path `putVersionedSource.StreamIn(rel, _)` hands to it is
`path.Join(resourceDir, rel)`, which does not end in `/` unless it is exactly `/`,
and the two paths are different strings. -/
theorem put_paths_differ_on_trailing_slash {σ : Type} (vr : VersionResult)
    (c : garden.Container σ) (resourceDir rel : String) (s : io.Reader) (w : σ)
    (h : path.endsInSlash rel) :
    (NewPutVersionedSource vr (some c) resourceDir).StreamOut rel w
        = some (c.StreamOut ⟨resourceDir ++ "/" ++ rel, ""⟩ w) ∧
    (NewPutVersionedSource vr (some c) resourceDir).StreamIn rel s w
        = some (c.StreamIn ⟨path.Join [resourceDir, rel], "", s⟩ w) ∧
    path.endsInSlash (resourceDir ++ "/" ++ rel) ∧
    (path.endsInSlash (path.Join [resourceDir, rel]) → path.Join [resourceDir, rel] = "/") ∧
    resourceDir ++ "/" ++ rel ≠ path.Join [resourceDir, rel] := by
  have hne := path.endsInSlash_ne_empty h
  have hout := path.endsInSlash_concat resourceDir rel h
  refine ⟨rfl, rfl, hout, path.Join_pair_endsInSlash _ _ hne, ?_⟩
  intro heq
  rw [heq] at hout
  have := path.Join_pair_endsInSlash _ _ hne hout
  rw [← heq] at this
  exact path.concat_ne_slash _ _ hne this

/-- Witness of C10 at the working directory `/scratch` and the path `out/`. -/
theorem put_paths_differ_on_trailing_slash_witness :
    path.endsInSlash "out/" ∧
    path.Join ["/scratch", "out/"] = "/scratch/out" ∧
    ("/scratch" : String) ++ "/" ++ "out/" ≠ path.Join ["/scratch", "out/"] :=
  ⟨by decide, by decide,
    (put_paths_differ_on_trailing_slash ⟨[], none⟩ storeContainer "/scratch" "out/" none []
      (by decide)).2.2.2.2⟩

end v1
